import Mathlib

/-! nomoemo: `test_files/mixed_content.c` and the emoji scanner of its specification

Part 1 embeds the C fixture `test_files/mixed_content.c`: the three functions
`calculate_area`, `report_status` and `main`.  Standard output is explicit state
(`Output`, the list of texts written so far, one entry per `printf` call), `int`
is `Int` reduced to the signed 32-bit range, and the string literals are the
literals of the C file, character for character.

Part 2 models the scanner that the specification describes (UTF-8 decoding,
location tracking, greedy emoji-sequence matching).  No scanner source exists in
the repository, so these definitions follow the specification's algorithm.
-/

namespace MixedContent

/-! ## Part 1: the C program -/

/-- Standard output as explicit state: the texts written so far, oldest first. -/
abbrev Output := List String

/-- Smallest value of a 32-bit `int`. -/
def INT_MIN : Int := -2147483648

/-- Largest value of a 32-bit `int`. -/
def INT_MAX : Int := 2147483647

/-- The value is representable as a 32-bit `int`. -/
def isInt (x : Int) : Prop := INT_MIN ≤ x ∧ x ≤ INT_MAX

instance (x : Int) : Decidable (isInt x) := by
  unfold isInt; exact inferInstance

/-- Reduction of a mathematical integer to the signed 32-bit range (two's
complement).  ISO C leaves signed overflow undefined; this is the result on the
usual targets. -/
def wrapInt (x : Int) : Int := (x + 2147483648) % 4294967296 - 2147483648

/-- Expansion of a `printf` format: `%d` consumes the next `int` argument and is
replaced by its decimal representation; every other character is copied.  `%d`
is the only conversion the fixture uses. -/
def formatChars : List Char → List Int → List Char
  | [], _ => []
  | '%' :: 'd' :: rest, a :: args => (toString a).data ++ formatChars rest args
  | c :: rest, args => c :: formatChars rest args

/-- The call `printf(fmt, args...)`: appends the expanded text to the output. -/
def printf (fmt : String) (args : List Int) (out : Output) : Output :=
  out ++ [String.mk (formatChars fmt.data args)]

/-- The function `int calculate_area(int width, int height)`: writes one line,
then returns the product. -/
def calculate_area (width height : Int) (out : Output) : Int × Output :=
  let out1 := printf "Calculating area...\n" [] out
  (wrapInt (width * height), out1)

/-- The function `void report_status(int code)`: a `switch` with three cases,
each ended by `break`, and a `default`. -/
def report_status (code : Int) (out : Output) : Output :=
  match code with
  | 0 => printf "Success ✅\n" [] out
  | 1 => printf "Warning ⚠️\n" [] out
  | 2 => printf "Error ❌\n" [] out
  | _ => printf "Unknown status ❓\n" [] out

/-- The function `int main()`: returns the exit status and the final output. -/
def main (out : Output) : Int × Output :=
  let out1 := printf "Starting application... 🚀\n" [] out
  let (area, out2) := calculate_area 10 20 out1
  let out3 := printf "Area: %d square units 🟦\n" [area] out2
  let out4 := report_status 0 out3
  let out5 := printf "Application completed! 🎉\n" [] out4
  (0, out5)

/-! ## Part 2: the scanner of the specification -/

/-- The bytes of a text in UTF-8, the encoding of the C file, as `printf` sends
them to the output stream. -/
def utf8Bytes (s : String) : List Nat :=
  s.data.flatMap (fun c => (String.utf8EncodeChar c).map UInt8.toNat)

/-- The code points of a text that lie outside the ASCII range, in order. -/
def nonAscii (s : String) : List Nat :=
  (s.data.map Char.toNat).filter (fun c => decide (128 ≤ c))

/-- Modelled from the spec: the substitute for an invalid byte sequence, "the
standard replacement character" U+FFFD (the decoder itself is missing). -/
def REPLACEMENT : Nat := 0xFFFD

/-- Modelled from the spec: a UTF-8 continuation byte, `10xxxxxx` (part of the
missing decoder). -/
def isCont (b : Nat) : Bool := 0x80 ≤ b && b < 0xC0

/-- Modelled from the spec: a two-byte UTF-8 sequence starting with `b0`
(part of the missing decoder); overlong forms are rejected. -/
def decode2 (b0 : Nat) (rest : List Nat) : Option Nat :=
  match rest with
  | b1 :: _ =>
    if 0xC2 ≤ b0 && b0 < 0xE0 && isCont b1 then
      some ((b0 - 0xC0) * 64 + (b1 - 0x80))
    else none
  | _ => none

/-- Modelled from the spec: a three-byte UTF-8 sequence starting with `b0`
(part of the missing decoder); overlong forms and surrogates are rejected. -/
def decode3 (b0 : Nat) (rest : List Nat) : Option Nat :=
  match rest with
  | b1 :: b2 :: _ =>
    let c := (b0 - 0xE0) * 4096 + (b1 - 0x80) * 64 + (b2 - 0x80)
    if 0xE0 ≤ b0 && b0 < 0xF0 && isCont b1 && isCont b2
        && 0x800 ≤ c && !(0xD800 ≤ c && c < 0xE000) then some c
    else none
  | _ => none

/-- Modelled from the spec: a four-byte UTF-8 sequence starting with `b0`
(part of the missing decoder); overlong forms and values above U+10FFFF are
rejected. -/
def decode4 (b0 : Nat) (rest : List Nat) : Option Nat :=
  match rest with
  | b1 :: b2 :: b3 :: _ =>
    let c := (b0 - 0xF0) * 262144 + (b1 - 0x80) * 4096 + (b2 - 0x80) * 64 + (b3 - 0x80)
    if 0xF0 ≤ b0 && b0 < 0xF8 && isCont b1 && isCont b2 && isCont b3
        && 0x10000 ≤ c && c < 0x110000 then some c
    else none
  | _ => none

/-- Modelled from the spec: the scalar value that starts at byte `b0` (followed
by `rest`) and the number of bytes it occupies (the decoder is missing).  "On
invalid byte sequences, substitute the standard replacement character and
continue": an invalid byte yields U+FFFD and occupies one byte. -/
def decodeOne (b0 : Nat) (rest : List Nat) : Nat × Nat :=
  if b0 < 0x80 then (b0, 1)
  else
    match decode2 b0 rest with
    | some c => (c, 2)
    | none =>
      match decode3 b0 rest with
      | some c => (c, 3)
      | none =>
        match decode4 b0 rest with
        | some c => (c, 4)
        | none => (REPLACEMENT, 1)

/-- Modelled from the spec: the decoding walk over the bytes (the decoder is
missing).  `skip` counts the bytes still belonging to the scalar value decoded
last; they are passed over. -/
def decodeFrom : List Nat → Nat → List (Nat × Nat)
  | [], _ => []
  | _ :: rest, skip + 1 => decodeFrom rest skip
  | b0 :: rest, 0 => decodeOne b0 rest :: decodeFrom rest ((decodeOne b0 rest).2 - 1)

/-- Modelled from the spec: step 1 of the scanner, "decode input bytes as UTF-8
text into a sequence of Unicode scalar values" (the decoder is missing).  Each
entry is a scalar value with its encoded length in bytes. -/
def decodeUtf8 (bytes : List Nat) : List (Nat × Nat) := decodeFrom bytes 0

/-- Modelled from the spec: a code point of SourceText with its derived byte
offset, line and column (the data model is missing from the sources). -/
structure Located where
  cp : Nat
  byteOffset : Nat
  line : Nat
  column : Nat
deriving DecidableEq

/-- Modelled from the spec: the record EmojiMatch, "codepoints, byteOffset ≥ 0,
line ≥ 1, column ≥ 1" (the data model is missing from the sources). -/
structure EmojiMatch where
  codepoints : List Nat
  byteOffset : Nat
  line : Nat
  column : Nat
deriving DecidableEq

/-- Modelled from the spec: step 2 of the scanner (missing), "walk the
code-point sequence left to right, tracking running byte offset, line count
(incremented on `\n`), and column count (reset to 1 after `\n`, incremented per
code point otherwise)". -/
def locate : List (Nat × Nat) → Nat → Nat → Nat → List Located
  | [], _, _, _ => []
  | (c, n) :: rest, off, line, col =>
    ⟨c, off, line, col⟩ ::
      (if c = 10 then locate rest (off + n) (line + 1) 1
       else locate rest (off + n) line (col + 1))

/-- Modelled from the spec: the code points that extend an emoji sequence,
"trailing joiner/variation-selector/skin-tone-modifier code points" (the scanner
is missing): U+200D, U+FE00..U+FE0F and U+1F3FB..U+1F3FF. -/
def isExtender (c : Nat) : Bool :=
  c == 0x200D || (0xFE00 ≤ c && c ≤ 0xFE0F) || (0x1F3FB ≤ c && c ≤ 0x1F3FF)

/-- Modelled from the spec: steps 3 to 5 of the scanner (missing).  At a code
point of the emoji table a match is emitted that greedily takes the extenders
which follow; `attached` is true while the walk is still inside the code points
consumed by the last match, which are passed over; any other code point
advances the position without a record.  The emoji table `isEmoji` is an
argument: the spec names its blocks only by example. -/
def collect (isEmoji : Nat → Bool) : List Located → Bool → List EmojiMatch
  | [], _ => []
  | p :: rest, attached =>
    if attached && isExtender p.cp then collect isEmoji rest true
    else if isEmoji p.cp then
      ⟨p.cp :: (rest.takeWhile (fun q => isExtender q.cp)).map (fun q => q.cp),
        p.byteOffset, p.line, p.column⟩ :: collect isEmoji rest true
    else collect isEmoji rest false

/-- Modelled from the spec: the contract `scan(text: bytes) -> sequence of
EmojiMatch` (the scanner is missing): decode, locate, collect.  Offsets start at
0, lines and columns at 1. -/
def scan (isEmoji : Nat → Bool) (text : List Nat) : List EmojiMatch :=
  collect isEmoji (locate (decodeUtf8 text) 0 1 1) false

/-- Modelled from the spec: a concrete emoji table (the table is missing), the
blocks the spec lists: Dingbats, Miscellaneous Symbols and Pictographs,
Emoticons, Transport and Map Symbols, Supplemental Symbols and Pictographs; and
Miscellaneous Symbols, the block of the warning sign of the spec's scenario. -/
def emojiRanges : List (Nat × Nat) :=
  [(0x2600, 0x26FF), (0x2700, 0x27BF), (0x1F300, 0x1F5FF), (0x1F600, 0x1F64F),
   (0x1F680, 0x1F6FF), (0x1F900, 0x1F9FF)]

/-- Modelled from the spec: membership in the concrete emoji table
`emojiRanges` (the table is missing). -/
def inEmojiRanges (c : Nat) : Bool := emojiRanges.any (fun r => r.1 ≤ c && c ≤ r.2)

/-- The successor relation of the location walk: `q` is the code point right
after `p`.  Its byte offset is greater; it is on the next line at column 1 when
`p` is a newline, and otherwise on the same line one column further. -/
def Step (p q : Located) : Prop :=
  p.byteOffset < q.byteOffset ∧
  (if p.cp = 10 then q.line = p.line + 1 ∧ q.column = 1
   else q.line = p.line ∧ q.column = p.column + 1)

/-- The code point `q` lies at least `k` code points after `b`: at least `k`
bytes further, and on a later line or on the same line at least `k` columns
further. -/
def Gap (k : Nat) (b q : Located) : Prop :=
  b.byteOffset + k ≤ q.byteOffset ∧
  (b.line < q.line ∨ (b.line = q.line ∧ b.column + k ≤ q.column))

/-- The match `a` ends before the match `b` starts, so the two do not overlap:
`b` starts at a greater byte offset, at least one byte per code point of `a`
further, and on a later line or on the same line at a column beyond the last
code point of `a`. -/
def EndsBefore (a b : EmojiMatch) : Prop :=
  a.byteOffset < b.byteOffset ∧
  a.byteOffset + a.codepoints.length ≤ b.byteOffset ∧
  (a.line < b.line ∨ (a.line = b.line ∧ a.column + a.codepoints.length ≤ b.column))

instance (a b : EmojiMatch) : Decidable (EndsBefore a b) := by
  unfold EndsBefore; exact inferInstance

/-! ## Auxiliary lemmas -/

theorem wrapInt_of_isInt (x : Int) (h : isInt x) : wrapInt x = x := by
  unfold isInt INT_MIN INT_MAX at h
  unfold wrapInt
  omega

theorem decodeOne_len_pos (b0 : Nat) (rest : List Nat) : 1 ≤ (decodeOne b0 rest).2 := by
  unfold decodeOne
  split
  · simp
  · split
    · simp
    · split
      · simp
      · split <;> simp

theorem decodeOne_len_le (b0 : Nat) (rest : List Nat) :
    (decodeOne b0 rest).2 ≤ rest.length + 1 := by
  unfold decodeOne
  split
  · simp
  · split
    · rename_i c h2
      unfold decode2 at h2
      split at h2
      · simp
      · simp at h2
    · split
      · rename_i c h3
        unfold decode3 at h3
        split at h3
        · simp
        · simp at h3
      · split
        · rename_i c h4
          unfold decode4 at h4
          split at h4
          · simp
          · simp at h4
        · simp

theorem decodeFrom_lengths_sum (bytes : List Nat) :
    ∀ skip, skip ≤ bytes.length →
      ((decodeFrom bytes skip).map (fun p => p.2)).sum + skip = bytes.length := by
  induction bytes with
  | nil => intro skip h; simp at h; subst h; simp [decodeFrom]
  | cons b rest ih =>
    intro skip h
    cases skip with
    | zero =>
      have h1 := decodeOne_len_pos b rest
      have h2 := decodeOne_len_le b rest
      have := ih ((decodeOne b rest).2 - 1) (by omega)
      simp only [decodeFrom, List.map_cons, List.sum_cons, List.length_cons]
      omega
    | succ k =>
      have := ih k (by simpa using h)
      simp only [decodeFrom, List.length_cons]
      omega

theorem decodeUtf8_lengths_sum (bytes : List Nat) :
    ((decodeUtf8 bytes).map (fun p => p.2)).sum = bytes.length := by
  simpa using decodeFrom_lengths_sum bytes 0 (Nat.zero_le _)

theorem decodeFrom_len_pos (bytes : List Nat) :
    ∀ skip, ∀ p ∈ decodeFrom bytes skip, 1 ≤ p.2 := by
  induction bytes with
  | nil => intro skip p hp; simp [decodeFrom] at hp
  | cons b rest ih =>
    intro skip p hp
    cases skip with
    | zero =>
      simp only [decodeFrom, List.mem_cons] at hp
      rcases hp with hp | hp
      · subst hp; exact decodeOne_len_pos b rest
      · exact ih _ p hp
    | succ k =>
      simp only [decodeFrom] at hp
      exact ih _ p hp

theorem locate_offset_ge (cps : List (Nat × Nat)) :
    ∀ off line col, ∀ q ∈ locate cps off line col, off ≤ q.byteOffset := by
  induction cps with
  | nil => intro off line col q hq; simp [locate] at hq
  | cons p rest ih =>
    obtain ⟨c, n⟩ := p
    intro off line col q hq
    simp only [locate, List.mem_cons] at hq
    rcases hq with hq | hq
    · subst hq; exact Nat.le_refl _
    · split at hq
      · have := ih _ _ _ q hq; omega
      · have := ih _ _ _ q hq; omega

theorem locate_offsets_increasing (cps : List (Nat × Nat)) (hpos : ∀ p ∈ cps, 1 ≤ p.2) :
    ∀ off line col,
      List.Pairwise (fun a b : Located => a.byteOffset < b.byteOffset)
        (locate cps off line col) := by
  induction cps with
  | nil => intro off line col; simp [locate]
  | cons p rest ih =>
    obtain ⟨c, n⟩ := p
    intro off line col
    have hn : 1 ≤ n := hpos (c, n) (List.mem_cons_self _ _)
    have hrest : ∀ p ∈ rest, 1 ≤ p.2 := fun p hp => hpos p (List.mem_cons_of_mem _ hp)
    simp only [locate]
    refine List.Pairwise.cons ?_ ?_
    · intro q hq
      split at hq
      · have := locate_offset_ge rest _ _ _ q hq
        show off < q.byteOffset
        omega
      · have := locate_offset_ge rest _ _ _ q hq
        show off < q.byteOffset
        omega
    · split
      · exact ih hrest _ _ _
      · exact ih hrest _ _ _

theorem collect_offsets_sublist (isEmoji : Nat → Bool) (ps : List Located) :
    ∀ attached, List.Sublist ((collect isEmoji ps attached).map (fun m => m.byteOffset))
      (ps.map (fun q => q.byteOffset)) := by
  induction ps with
  | nil => intro attached; simp [collect]
  | cons p rest ih =>
    intro attached
    simp only [collect]
    split
    · exact List.Sublist.cons _ (ih true)
    · split
      · simp only [List.map_cons]
        exact List.Sublist.cons₂ _ (ih true)
      · exact List.Sublist.cons _ (ih false)

theorem scan_offsets_pairwise (isEmoji : Nat → Bool) (text : List Nat) :
    List.Pairwise (fun a b : EmojiMatch => a.byteOffset < b.byteOffset) (scan isEmoji text) := by
  have hloc := locate_offsets_increasing (decodeUtf8 text)
    (decodeFrom_len_pos text 0) 0 1 1
  have hsub := collect_offsets_sublist isEmoji (locate (decodeUtf8 text) 0 1 1) false
  have h1 : List.Pairwise (fun a b : Nat => a < b)
      ((locate (decodeUtf8 text) 0 1 1).map (fun q => q.byteOffset)) :=
    List.pairwise_map.mpr hloc
  have h2 := List.Pairwise.sublist hsub h1
  exact List.pairwise_map.mp h2

theorem locate_head (cps : List (Nat × Nat)) (off line col : Nat) :
    ∀ y ∈ (locate cps off line col).head?,
      y.byteOffset = off ∧ y.line = line ∧ y.column = col := by
  cases cps with
  | nil => intro y hy; simp [locate] at hy
  | cons p rest =>
    obtain ⟨c, n⟩ := p
    intro y hy
    simp only [locate, List.head?_cons, Option.mem_def, Option.some.injEq] at hy
    subst hy
    exact ⟨rfl, rfl, rfl⟩

theorem locate_chain (cps : List (Nat × Nat)) (hpos : ∀ p ∈ cps, 1 ≤ p.2) :
    ∀ off line col, List.Chain' Step (locate cps off line col) := by
  induction cps with
  | nil => intro off line col; simp [locate]
  | cons p rest ih =>
    obtain ⟨c, n⟩ := p
    intro off line col
    have hn : 1 ≤ n := hpos (c, n) (List.mem_cons_self _ _)
    have hrest : ∀ p ∈ rest, 1 ≤ p.2 := fun p hp => hpos p (List.mem_cons_of_mem _ hp)
    simp only [locate]
    by_cases hc : c = 10
    · rw [if_pos hc]
      refine List.Chain'.cons' (ih hrest _ _ _) ?_
      intro y hy
      obtain ⟨h1, h2, h3⟩ := locate_head rest _ _ _ y hy
      refine ⟨?_, ?_⟩
      · show off < y.byteOffset
        omega
      · show (if c = 10 then y.line = line + 1 ∧ y.column = 1
          else y.line = line ∧ y.column = col + 1)
        rw [if_pos hc]; exact ⟨h2, h3⟩
    · rw [if_neg hc]
      refine List.Chain'.cons' (ih hrest _ _ _) ?_
      intro y hy
      obtain ⟨h1, h2, h3⟩ := locate_head rest _ _ _ y hy
      refine ⟨?_, ?_⟩
      · show off < y.byteOffset
        omega
      · show (if c = 10 then y.line = line + 1 ∧ y.column = 1
          else y.line = line ∧ y.column = col + 1)
        rw [if_neg hc]; exact ⟨h2, h3⟩

theorem locate_map_cp (cps : List (Nat × Nat)) :
    ∀ off line col, (locate cps off line col).map (fun q => q.cp) = cps.map (fun p => p.1) := by
  induction cps with
  | nil => intro off line col; simp [locate]
  | cons p rest ih =>
    obtain ⟨c, n⟩ := p
    intro off line col
    simp only [locate, List.map_cons]
    split <;> rw [ih]

theorem gap_step (k : Nat) (b p q : Located) (hg : Gap k b p) (hs : Step p q) :
    Gap (k + 1) b q := by
  obtain ⟨g1, g2⟩ := hg
  obtain ⟨s1, s2⟩ := hs
  refine ⟨by omega, ?_⟩
  split at s2 <;> omega

theorem gap_mono (k j : Nat) (b q : Located) (hkj : j ≤ k) (hg : Gap k b q) : Gap j b q := by
  obtain ⟨g1, g2⟩ := hg
  exact ⟨by omega, by omega⟩

theorem gap_of_chain (b : Located) (l : List Located) :
    ∀ (p : Located) (k : Nat), Gap k b p → List.Chain' Step (p :: l) →
      ∀ q ∈ l, Gap (k + 1) b q := by
  induction l with
  | nil => intro p k _ _ q hq; simp at hq
  | cons r l ih =>
    intro p k hg hc q hq
    rw [List.chain'_cons] at hc
    have hr : Gap (k + 1) b r := gap_step k b p r hg hc.1
    rcases List.mem_cons.mp hq with h | h
    · subst h; exact hr
    · exact gap_mono _ _ b q (by omega) (ih r (k + 1) hr hc.2 q h)

theorem gap_after_extenders (f : Located → Bool) (b : Located) (l : List Located) :
    ∀ (p : Located) (k : Nat), Gap k b p → List.Chain' Step (p :: l) →
      ∀ q ∈ l.dropWhile f, Gap (k + 1 + (l.takeWhile f).length) b q := by
  induction l with
  | nil => intro p k _ _ q hq; simp at hq
  | cons r l ih =>
    intro p k hg hc q hq
    by_cases hf : f r = true
    · rw [List.dropWhile_cons_of_pos hf] at hq
      rw [List.takeWhile_cons_of_pos hf]
      rw [List.chain'_cons] at hc
      have hr : Gap (k + 1) b r := gap_step k b p r hg hc.1
      have := ih r (k + 1) hr hc.2 q hq
      simpa [Nat.add_assoc, Nat.add_comm, Nat.add_left_comm] using this
    · rw [List.dropWhile_cons_of_neg hf] at hq
      rw [List.takeWhile_cons_of_neg hf]
      simpa using gap_of_chain b (r :: l) p k hg hc q hq

theorem collect_dropWhile (isEmoji : Nat → Bool) (l : List Located) :
    collect isEmoji l true =
      collect isEmoji (l.dropWhile (fun q => isExtender q.cp)) true := by
  induction l with
  | nil => rfl
  | cons r l ih =>
    by_cases hf : isExtender r.cp = true
    · rw [List.dropWhile_cons_of_pos (by simpa using hf)]
      rw [← ih]
      simp [collect, hf]
    · rw [List.dropWhile_cons_of_neg (by simpa using hf)]

theorem collect_mem_located (isEmoji : Nat → Bool) (ps : List Located) :
    ∀ attached, ∀ m ∈ collect isEmoji ps attached,
      ∃ q ∈ ps, m.byteOffset = q.byteOffset ∧ m.line = q.line ∧ m.column = q.column := by
  induction ps with
  | nil => intro attached m hm; simp [collect] at hm
  | cons p rest ih =>
    intro attached m hm
    simp only [collect] at hm
    split at hm
    · obtain ⟨q, hq, h⟩ := ih true m hm
      exact ⟨q, List.mem_cons_of_mem _ hq, h⟩
    · split at hm
      · rcases List.mem_cons.mp hm with h | h
        · subst h
          exact ⟨p, List.mem_cons_self _ _, rfl, rfl, rfl⟩
        · obtain ⟨q, hq, h⟩ := ih true m h
          exact ⟨q, List.mem_cons_of_mem _ hq, h⟩
      · obtain ⟨q, hq, h⟩ := ih false m hm
        exact ⟨q, List.mem_cons_of_mem _ hq, h⟩

theorem collect_endsBefore (isEmoji : Nat → Bool) (ps : List Located) :
    List.Chain' Step ps →
      ∀ attached, List.Pairwise EndsBefore (collect isEmoji ps attached) := by
  induction ps with
  | nil => intro _ attached; simp [collect]
  | cons p rest ih =>
    intro hc attached
    have hrest : List.Chain' Step rest := (List.chain'_cons'.mp hc).2
    simp only [collect]
    split
    · exact ih hrest true
    · split
      · refine List.Pairwise.cons ?_ (ih hrest true)
        intro m hm
        rw [collect_dropWhile] at hm
        obtain ⟨q, hq, h1, h2, h3⟩ := collect_mem_located isEmoji _ true m hm
        have hg := gap_after_extenders (fun q => isExtender q.cp) p rest p 0
          ⟨by omega, by omega⟩ hc q hq
        obtain ⟨g1, g2⟩ := hg
        refine ⟨?_, ?_, ?_⟩
        · show p.byteOffset < m.byteOffset
          omega
        · show p.byteOffset + (p.cp :: List.map (fun q => q.cp)
            (List.takeWhile (fun q => isExtender q.cp) rest)).length ≤ m.byteOffset
          simp only [List.length_cons, List.length_map]
          omega
        · show p.line < m.line ∨ (p.line = m.line ∧ p.column + (p.cp :: List.map (fun q => q.cp)
            (List.takeWhile (fun q => isExtender q.cp) rest)).length ≤ m.column)
          simp only [List.length_cons, List.length_map]
          omega
      · exact ih hrest false

theorem collect_codepoints_sublist (isEmoji : Nat → Bool) (ps : List Located) :
    ∀ attached, List.Sublist ((collect isEmoji ps attached).flatMap (fun m => m.codepoints))
      ((if attached then ps.dropWhile (fun q => isExtender q.cp) else ps).map
        (fun q => q.cp)) := by
  induction ps with
  | nil => intro attached; cases attached <;> simp [collect]
  | cons p rest ih =>
    intro attached
    have key : ¬ (attached && isExtender p.cp) = true →
        List.Sublist ((collect isEmoji (p :: rest) attached).flatMap (fun m => m.codepoints))
          ((p :: rest).map (fun q => q.cp)) := by
      intro hne
      simp only [collect, if_neg hne]
      split
      · have h := ih true
        simp only [if_true] at h
        simp only [List.flatMap_cons, List.map_cons, List.cons_append]
        refine List.Sublist.cons₂ _ ?_
        conv => rhs; rw [← List.takeWhile_append_dropWhile (fun q => isExtender q.cp) rest]
        rw [List.map_append]
        exact List.Sublist.append (List.Sublist.refl _) h
      · have h := ih false
        simp only [Bool.false_eq_true, if_false] at h
        exact List.Sublist.cons _ h
    cases attached with
    | false => simpa using key (by simp)
    | true =>
      by_cases hf : isExtender p.cp = true
      · have h := ih true
        simp only [if_true] at h
        simp only [if_true, collect, Bool.true_and, hf]
        rw [List.dropWhile_cons_of_pos (by simpa using hf)]
        exact h
      · have := key (by simpa using hf)
        simp only [if_true]
        rw [List.dropWhile_cons_of_neg (by simpa using hf)]
        exact this

theorem collect_codepoints_pos (isEmoji : Nat → Bool) (ps : List Located) :
    ∀ attached, ∀ m ∈ collect isEmoji ps attached, 1 ≤ m.codepoints.length := by
  induction ps with
  | nil => intro attached m hm; simp [collect] at hm
  | cons p rest ih =>
    intro attached m hm
    simp only [collect] at hm
    split at hm
    · exact ih true m hm
    · split at hm
      · rcases List.mem_cons.mp hm with h | h
        · subst h; simp
        · exact ih true m h
      · exact ih false m hm

theorem success_located :
    locate (decodeUtf8 (utf8Bytes "Success ✅\n")) 0 1 1 =
      [⟨83, 0, 1, 1⟩, ⟨117, 1, 1, 2⟩, ⟨99, 2, 1, 3⟩, ⟨99, 3, 1, 4⟩, ⟨101, 4, 1, 5⟩,
       ⟨115, 5, 1, 6⟩, ⟨115, 6, 1, 7⟩, ⟨32, 7, 1, 8⟩, ⟨0x2705, 8, 1, 9⟩, ⟨10, 11, 1, 10⟩] := by
  decide

theorem warning_located :
    locate (decodeUtf8 (utf8Bytes "Warning ⚠️\n")) 0 1 1 =
      [⟨87, 0, 1, 1⟩, ⟨97, 1, 1, 2⟩, ⟨114, 2, 1, 3⟩, ⟨110, 3, 1, 4⟩, ⟨105, 4, 1, 5⟩,
       ⟨110, 5, 1, 6⟩, ⟨103, 6, 1, 7⟩, ⟨32, 7, 1, 8⟩, ⟨0x26A0, 8, 1, 9⟩,
       ⟨0xFE0F, 11, 1, 10⟩, ⟨10, 14, 1, 11⟩] := by
  decide

theorem scan_main_output :
    scan inEmojiRanges ((main []).2.flatMap utf8Bytes) =
      [⟨[0x1F680], 24, 1, 25⟩, ⟨[0x2705], 85, 4, 9⟩, ⟨[0x1F389], 112, 5, 24⟩] := by
  decide

theorem inEmojiRanges_ascii (c : Nat) (h : c < 128) : inEmojiRanges c = false := by
  simp only [inEmojiRanges, emojiRanges, List.any_cons, List.any_nil, Bool.or_false,
    Bool.or_eq_false_iff, Bool.and_eq_false_iff, decide_eq_false_iff_not]
  omega

/-! ## The claims -/

/-- C1: for `int` arguments whose mathematical product fits in a signed 32-bit
`int`, `calculate_area` returns exactly `width * height`. -/
theorem calculate_area_returns_product (width height : Int) (out : Output)
    (_hw : isInt width) (_hh : isInt height) (hfit : isInt (width * height)) :
    (calculate_area width height out).1 = width * height := by
  simp only [calculate_area]
  exact wrapInt_of_isInt _ hfit

/-- Witness for C1: width -7 and height 300. -/
theorem calculate_area_returns_product_witness :
    isInt (-7) ∧ isInt 300 ∧ isInt (-7 * 300) ∧
      (calculate_area (-7) 300 []).1 = -7 * 300 :=
  ⟨by decide, by decide, by decide,
    calculate_area_returns_product (-7) 300 [] (by decide) (by decide) (by decide)⟩

/-- C2: `report_status` maps the codes 0, 1 and 2 to their messages: for every
earlier output, exactly one text is appended, "Success ✅\n" for 0,
"Warning ⚠️\n" for 1 and "Error ❌\n" for 2, with no fall-through; the code
points outside ASCII in these texts are U+2705, then U+26A0 U+FE0F, then
U+274C. -/
theorem report_status_named_codes (out : Output) :
    (report_status 0 out = out ++ ["Success ✅\n"] ∧
     report_status 1 out = out ++ ["Warning ⚠️\n"] ∧
     report_status 2 out = out ++ ["Error ❌\n"]) ∧
    (nonAscii "Success ✅\n" = [0x2705] ∧
     nonAscii "Warning ⚠️\n" = [0x26A0, 0xFE0F] ∧
     nonAscii "Error ❌\n" = [0x274C]) := by
  refine ⟨⟨?_, ?_, ?_⟩, by decide, by decide, by decide⟩ <;>
    simp [report_status, printf, formatChars]

/-- C3: for every code other than 0, 1 and 2, negative codes included,
`report_status` appends exactly "Unknown status ❓\n" and nothing else; and for
every code whatsoever it returns, appending exactly one of its four messages.
The only code point outside ASCII in the default text is U+2753. -/
theorem report_status_default :
    (∀ (code : Int) (out : Output), code ≠ 0 → code ≠ 1 → code ≠ 2 →
      report_status code out = out ++ ["Unknown status ❓\n"]) ∧
    nonAscii "Unknown status ❓\n" = [0x2753] ∧
    (∀ (code : Int) (out : Output), ∃ msg ∈
        ["Success ✅\n", "Warning ⚠️\n", "Error ❌\n", "Unknown status ❓\n"],
      report_status code out = out ++ [msg]) := by
  refine ⟨?_, by decide, ?_⟩
  · intro code out h0 h1 h2
    unfold report_status
    split <;> simp_all [printf, formatChars]
  · intro code out
    unfold report_status
    split <;> simp [printf, formatChars]

/-- Witness for C3: the negative code -1 after one earlier text. -/
theorem report_status_default_witness :
    ((-1 : Int) ≠ 0 ∧ (-1 : Int) ≠ 1 ∧ (-1 : Int) ≠ 2) ∧
      report_status (-1) ["earlier"] = ["earlier"] ++ ["Unknown status ❓\n"] :=
  ⟨by decide, report_status_default.1 (-1) ["earlier"] (by decide) (by decide) (by decide)⟩

/-- C4: started on an empty output, `main` returns 0 and writes exactly five
texts in order; the area printed is `calculate_area 10 20`, which is 200, and
the status reported is the success message.  The code points outside ASCII in
the five texts are U+1F680, none, U+1F7E6, U+2705 and U+1F389. -/
theorem main_output :
    main [] = (0, ["Starting application... 🚀\n", "Calculating area...\n",
      "Area: 200 square units 🟦\n", "Success ✅\n", "Application completed! 🎉\n"]) ∧
    (∀ out, (calculate_area 10 20 out).1 = 200) ∧
    (main []).2.map nonAscii = [[0x1F680], [], [0x1F7E6], [0x2705], [0x1F389]] := by
  refine ⟨by decide, ?_, by decide⟩
  intro out
  simp only [calculate_area]
  decide

/-- C5: the text `report_status 0` writes is "Success ✅\n"; decoded as UTF-8
its only code point outside ASCII is U+2705, at byte offset 8, line 1, column 9;
and a scan whose emoji table holds U+2705 and no ASCII code point reports
exactly one match, with codepoints [U+2705], byte offset 8, line 1, column 9. -/
theorem success_text_single_emoji :
    report_status 0 [] = ["Success ✅\n"] ∧
    (locate (decodeUtf8 (utf8Bytes "Success ✅\n")) 0 1 1).filter
        (fun p => decide (128 ≤ p.cp)) = [⟨0x2705, 8, 1, 9⟩] ∧
    (∀ isEmoji : Nat → Bool, isEmoji 0x2705 = true →
      (∀ c, c < 128 → isEmoji c = false) →
      scan isEmoji (utf8Bytes "Success ✅\n") = [⟨[0x2705], 8, 1, 9⟩]) := by
  refine ⟨by decide, by decide, ?_⟩
  intro isEmoji h1 h2
  unfold scan
  rw [success_located]
  simp [collect, isExtender, h1, h2]

/-- Witness for C5: the concrete table `emojiRanges`. -/
theorem success_text_single_emoji_witness :
    inEmojiRanges 0x2705 = true ∧ (∀ c, c < 128 → inEmojiRanges c = false) ∧
      scan inEmojiRanges (utf8Bytes "Success ✅\n") = [⟨[0x2705], 8, 1, 9⟩] :=
  ⟨by decide, inEmojiRanges_ascii,
    success_text_single_emoji.2.2 inEmojiRanges (by decide) inEmojiRanges_ascii⟩

/-- C6: the text `report_status 1` writes decodes to "Warning " followed by
U+26A0, then immediately U+FE0F, then the newline; these two adjacent code
points are its only code points outside ASCII; and a scan whose emoji table
holds U+26A0 and no ASCII code point reports exactly one match, spanning both
code points. -/
theorem warning_text_one_sequence :
    report_status 1 [] = ["Warning ⚠️\n"] ∧
    (decodeUtf8 (utf8Bytes "Warning ⚠️\n")).map (fun p => p.1) =
      [87, 97, 114, 110, 105, 110, 103, 32, 0x26A0, 0xFE0F, 10] ∧
    (locate (decodeUtf8 (utf8Bytes "Warning ⚠️\n")) 0 1 1).filter
        (fun p => decide (128 ≤ p.cp)) = [⟨0x26A0, 8, 1, 9⟩, ⟨0xFE0F, 11, 1, 10⟩] ∧
    (∀ isEmoji : Nat → Bool, isEmoji 0x26A0 = true →
      (∀ c, c < 128 → isEmoji c = false) →
      scan isEmoji (utf8Bytes "Warning ⚠️\n") = [⟨[0x26A0, 0xFE0F], 8, 1, 9⟩]) := by
  refine ⟨by decide, by decide, by decide, ?_⟩
  intro isEmoji h1 h2
  unfold scan
  rw [warning_located]
  simp [collect, isExtender, h1, h2]

/-- Witness for C6: the concrete table `emojiRanges`. -/
theorem warning_text_one_sequence_witness :
    inEmojiRanges 0x26A0 = true ∧ (∀ c, c < 128 → inEmojiRanges c = false) ∧
      scan inEmojiRanges (utf8Bytes "Warning ⚠️\n") = [⟨[0x26A0, 0xFE0F], 8, 1, 9⟩] :=
  ⟨by decide, inEmojiRanges_ascii,
    warning_text_one_sequence.2.2.2 inEmojiRanges (by decide) inEmojiRanges_ascii⟩

/-- C7: for every emoji table and every byte text, each match returned by
`scan` has a byte offset strictly greater than that of the match before it, and
the offsets are strictly increasing along the whole sequence, so no two matches
share an offset.  No two matches overlap: every match ends before each later
match starts (`EndsBefore`: the later one lies on a later line, or on the same
line at a column beyond the last code point of the earlier one, and at least as
many bytes further as the earlier one has code points).  No code point is
reported twice: every match holds at least one code point, and the code points
of all matches, written one after the other, form a subsequence of the decoded
code points of the text. -/
theorem scan_byteOffset_strictly_increasing (isEmoji : Nat → Bool) (text : List Nat) :
    List.Chain' (fun a b : EmojiMatch => a.byteOffset < b.byteOffset) (scan isEmoji text) ∧
    List.Pairwise (fun a b : EmojiMatch => a.byteOffset < b.byteOffset) (scan isEmoji text) ∧
    List.Chain' EndsBefore (scan isEmoji text) ∧
    List.Pairwise EndsBefore (scan isEmoji text) ∧
    (∀ m ∈ scan isEmoji text, 1 ≤ m.codepoints.length) ∧
    List.Sublist ((scan isEmoji text).flatMap (fun m => m.codepoints))
      ((decodeUtf8 text).map (fun p => p.1)) := by
  have hchain := locate_chain (decodeUtf8 text) (decodeFrom_len_pos text 0) 0 1 1
  have hends := collect_endsBefore isEmoji (locate (decodeUtf8 text) 0 1 1) hchain false
  have hsub := collect_codepoints_sublist isEmoji (locate (decodeUtf8 text) 0 1 1) false
  simp only [Bool.false_eq_true, if_false, locate_map_cp] at hsub
  exact ⟨List.Pairwise.chain' (scan_offsets_pairwise isEmoji text),
    scan_offsets_pairwise isEmoji text, List.Pairwise.chain' hends, hends,
    collect_codepoints_pos isEmoji _ false, hsub⟩

/-- C8: for every width, height and earlier output, `calculate_area` appends
exactly the one text "Calculating area...\n" and keeps the earlier output as it
was; that text is pure ASCII, so neither code point of the gear emoji of the
comment (U+2699, U+FE0F) occurs in what the function writes. -/
theorem calculate_area_output_frame (width height : Int) (out : Output) :
    (calculate_area width height out).2 = out ++ ["Calculating area...\n"] ∧
    (∀ c ∈ "Calculating area...\n".data, c.toNat < 128) ∧
    (∀ s ∈ (calculate_area width height []).2,
      Char.ofNat 0x2699 ∉ s.data ∧ Char.ofNat 0xFE0F ∉ s.data) := by
  refine ⟨?_, by decide, ?_⟩
  · simp [calculate_area, printf, formatChars]
  · intro s hs
    have : s = "Calculating area...\n" := by
      simpa [calculate_area, printf, formatChars] using hs
    subst this
    decide

end MixedContent
